import Mathlib

/-!
Verification development for the policy-discovery and field-enrichment core
of the Technical-Challenge repository.

The Python sources `src/policy_discovery.py`, `src/enrichment.py`,
`src/utils.py` and `src/config.py` are shallowly embedded below.  Pure string
manipulation, validation, confidence scoring, deduplication and merge logic
are translated directly; the Python `re` regular-expression engine and the
network/LLM collaborators are external to the modelled core and are
represented by explicit parameters (a record of regex primitives, and
explicit strategy/oracle outcomes), so that every theorem quantifies over
all possible behaviours of those collaborators.

Floating-point confidences are modelled as rationals; every confidence
appearing in the source is an exact decimal, and all arithmetic performed on
confidences in the source (sums of hundredths, `min`, `max`) is exact in
ℚ just as it is relevant to the comparisons the code performs.
-/

/-! ## String primitives

The Python string operations used by the core, implemented over the
character list of a `String` so that all of them compute by structural
recursion. -/

/-- Python `str.lower` (ASCII as used by the source). -/
def lowerStr (s : String) : String := ⟨s.data.map Char.toLower⟩

/-- Python `str.upper` (ASCII as used by the source). -/
def upperStr (s : String) : String := ⟨s.data.map Char.toUpper⟩

/-- Whether `p` is a prefix of `l` (Python `str.startswith`). -/
def isPrefixOfL : List Char → List Char → Bool
  | [], _ => true
  | _ :: _, [] => false
  | p :: ps, c :: cs => p == c && isPrefixOfL ps cs

/-- Whether `p` occurs as a contiguous substring of `l` (Python `in`). -/
def containsSub (l p : List Char) : Bool :=
  match l with
  | [] => isPrefixOfL p []
  | _ :: rest => isPrefixOfL p l || containsSub rest p

/-- Python `pat in s` on strings. -/
def strContains (s pat : String) : Bool := containsSub s.data pat.data

/-- Python `s.startswith(pre)`. -/
def strStartsWith (s pre : String) : Bool := isPrefixOfL pre.data s.data

/-- Auxiliary for `splitOnChar`: split a character list at every occurrence
of the separator, like Python `str.split(sep)` for a one-character `sep`. -/
def splitOnCharAux (sep : Char) : List Char → List Char → List (List Char)
  | [], acc => [acc.reverse]
  | x :: xs, acc =>
    if x == sep then acc.reverse :: splitOnCharAux sep xs []
    else splitOnCharAux sep xs (x :: acc)

/-- Python `s.split(sep)` for a one-character separator. -/
def splitOnChar (sep : Char) (s : String) : List String :=
  (splitOnCharAux sep s.data []).map (fun l => ⟨l⟩)

/-- Python `s.split(sep)[-1]`: last component (the whole string when the
separator does not occur). -/
def splitLast (sep : Char) (s : String) : String :=
  (splitOnChar sep s).getLastD s

/-- Python `s.split(sep)[0]`: first component. -/
def splitFirst (sep : Char) (s : String) : String :=
  (splitOnChar sep s).headD s

/-- Python `s.rstrip('/')`. -/
def rstripSlashes (s : String) : String :=
  ⟨(s.data.reverse.dropWhile (· == '/')).reverse⟩

/-- Python `s.lstrip('/')`. -/
def lstripSlashes (s : String) : String := ⟨s.data.dropWhile (· == '/')⟩

/-- Python `s[:n]` (slicing by characters). -/
def strTake (s : String) (n : Nat) : String := ⟨s.data.take n⟩

/-- Python `re.escape`: every character other than an ASCII letter, digit or
underscore is preceded by a backslash. -/
def reEscape (s : String) : String :=
  ⟨s.data.flatMap (fun c => if c.isAlphanum || c == '_' then [c] else ['\\', c])⟩

/-! ## Validators (`src/utils.py`)

`is_valid_email` implements the anchored regex
`^[a-zA-Z0-9._%+-]+@[a-zA-Z0-9.-]+\.[a-zA-Z]{2,}$` of `utils.is_valid_email`
(lines 226-238): the string must decompose as `local@dom` where `local` is a
nonempty run over the local character class and `dom` decomposes as
`a ++ "." ++ b` with `a` nonempty over the domain class and `b` at least two
ASCII letters.  Since neither character class contains `@`, the regex matches
exactly when such a decomposition exists; Python `$` also accepts one
trailing newline, which `stripFinalNewline` reproduces. -/

/-- Character class `[a-zA-Z0-9._%+-]` of the local part. -/
def emailLocalChar (c : Char) : Bool :=
  c.isAlpha || c.isDigit || c == '.' || c == '_' || c == '%' || c == '+' || c == '-'

/-- Character class `[a-zA-Z0-9.-]` of the domain part. -/
def emailDomainChar (c : Char) : Bool :=
  c.isAlpha || c.isDigit || c == '.' || c == '-'

/-- Whether the remainder of the domain contains a split `a ++ "." ++ b`
with the scanned part staying in the domain class, `b` all ASCII letters and
`b.length ≥ 2` (the `[a-zA-Z0-9.-]+\.[a-zA-Z]{2,}` backtracking search). -/
def emailDomainSplit : List Char → Bool
  | [] => false
  | c :: rest =>
    (c == '.' && rest.all (fun d => d.isAlpha) && decide (2 ≤ rest.length))
      || (emailDomainChar c && emailDomainSplit rest)

/-- Whether `l` matches `[a-zA-Z0-9.-]+\.[a-zA-Z]{2,}` in full. -/
def emailDomainOk : List Char → Bool
  | [] => false
  | c :: rest => emailDomainChar c && emailDomainSplit rest

/-- Whether `l` matches `[a-zA-Z0-9._%+-]+` followed by `@` and a valid
domain, consuming the whole list.  The local run is scanned greedily; since
`@` is in neither class, the decomposition at the unique possible `@` is
exactly what the regex finds. -/
def emailShape : List Char → Bool
  | [] => false
  | c :: rest =>
    if c == '@' then false
    else if emailLocalChar c then emailShapeTail rest
    else false
where
  /-- After at least one local character: either more local characters, or
  the `@` followed by the domain. -/
  emailShapeTail : List Char → Bool
    | [] => false
    | c :: rest =>
      if c == '@' then emailDomainOk rest
      else if emailLocalChar c then emailShapeTail rest
      else false

/-- Python `$` in `re.match` also matches just before one final newline. -/
def stripFinalNewline (l : List Char) : List Char :=
  match l.reverse with
  | '\n' :: rest => rest.reverse
  | _ => l

/-- Embedding of `utils.is_valid_email`. -/
def is_valid_email (email : String) : Bool :=
  emailShape (stripFinalNewline email.data)

/-- The fixed ISO 3166-1 alpha-2 set of `utils.is_valid_country_code`
(lines 256-272). -/
def validCountryCodes : List String :=
  ["US", "GB", "CA", "AU", "DE", "FR", "IT", "ES", "NL", "BE",
   "CH", "AT", "SE", "NO", "DK", "FI", "PL", "CZ", "RU", "JP",
   "CN", "IN", "BR", "MX", "ZA", "NZ", "SG", "HK", "KR", "TH"]

/-- Embedding of `utils.is_valid_country_code`: membership of the
upper-cased code in the fixed set. -/
def is_valid_country_code (code : String) : Bool :=
  validCountryCodes.contains (upperStr code)

/-! ## Extraction data model (`src/enrichment.py` lines 27-46) -/

/-- Embedding of `ExtractionSource`. -/
inductive ExtractionSource where
  | pattern
  | llm
  | tld
  | fallback
deriving DecidableEq, Repr

/-- Embedding of `ExtractionResult`. -/
structure ExtractionResult where
  value : String
  confidence : ℚ
  source : ExtractionSource
deriving DecidableEq, Repr

/-- The Python `re` module as seen by the enrichment core: `finditer`
returns the list of matched strings in scan order (the relevant capture
group of each match), `search` reports whether a pattern occurs, and `sub`
performs a substitution.  Flags such as `re.IGNORECASE` are fixed at each
call site in the source and are considered part of the engine.  The core's
own logic never depends on regex internals, so every theorem below holds
for an arbitrary engine. -/
structure Re where
  finditer : String → String → List String
  search : String → String → Bool
  sub : String → String → String → String

/-- A regex engine in which nothing matches and substitution is the
identity: the behaviour of `re` on text containing none of the searched
patterns. -/
def reNone : Re where
  finditer := fun _ _ => []
  search := fun _ _ => false
  sub := fun _ _ s => s

/-- Python `sorted(results, key=lambda x: x.confidence, reverse=True)`:
a stable descending sort by confidence. -/
def sortByConfidence (rs : List ExtractionResult) : List ExtractionResult :=
  rs.mergeSort (fun a b => b.confidence ≤ a.confidence)

/-! ## Email extraction (`FieldEnricher.extract_emails`, lines 56-124) -/

/-- The six regex families of `email_patterns` with their base confidences
(lines 70-84).  Literal braces are written with their `\x7b`/`\x7d` codes. -/
def email_patterns : List (String × ℚ) :=
  [("privacy[\\s\\-]*(?:@|at|\\(at\\)|\\[at\\]|&#x40;|%40)[\\s\\-]*([a-z0-9.-]+\\.[a-z]\x7b2,\x7d)", 95/100),
   ("dpo[\\s\\-]*(?:@|at|\\(at\\)|\\[at\\]|&#x40;|%40)[\\s\\-]*([a-z0-9.-]+\\.[a-z]\x7b2,\x7d)", 95/100),
   ("(?:contact|support|help|info)[\\s\\-]*(?:@|at|\\(at\\)|\\[at\\]|&#x40;|%40)[\\s\\-]*([a-z0-9.-]+\\.[a-z]\x7b2,\x7d)", 90/100),
   ("[a-z0-9._%+-]+(?:\\s*@|\\s*\\[?\\s*at\\s*\\]?\\s*)[a-z0-9.-]+\\.[a-z]\x7b2,\x7d", 80/100),
   ("[a-z0-9._%+-]+\\s*(?:\\(at\\)|\\[at\\]| at |@|&#x40;|%40)\\s*[a-z0-9.-]+\\.[a-z]\x7b2,\x7d", 75/100),
   ("[a-z0-9._%+-]+\\s*\\[?\\s*(?:at|dot)\\s*\\]?\\s*[a-z0-9.-]+\\s*\\[?\\s*(?:at|dot)\\s*\\]?\\s*[a-z]\x7b2,\x7d", 65/100)]

/-- The `re.sub` pattern de-obfuscating `at` variants into `@` (line 92). -/
def emailAtSubPattern : String :=
  "\\s*(?:at|@|\\(at\\)|\\[at\\]|&#x40;|%40)\\s*"

/-- The `re.sub` pattern de-obfuscating `dot` into `.` (line 93). -/
def emailDotSubPattern : String := "\\s*dot\\s*"

/-- The `re.sub` pattern removing residual brackets (line 94). -/
def emailBracketSubPattern : String := "[\\[\\]()\\\\]"

/-- Normalisation of a raw match (lines 91-94): lower-case, then the three
`re.sub` passes. -/
def normalize_email (re : Re) (m : String) : String :=
  re.sub emailBracketSubPattern ""
    (re.sub emailDotSubPattern "."
      (re.sub emailAtSubPattern "@" (lowerStr m)))

/-- Domain-based confidence adjustment (lines 102-111): `-0.2` for a free
consumer mail provider, else `+0.1` when the email's domain occurs as a word
in the source text. -/
def email_domain_adjustment (re : Re) (text email : String) : ℚ :=
  let domain := splitLast '@' email
  if ["gmail.", "yahoo.", "outlook.", "hotmail."].any
      (fun d => strStartsWith domain d) then
    -(2/10)
  else if re.search ("\\b" ++ reEscape domain ++ "\\b") text then 1/10
  else 0

/-- Processing of one regex match of one email pattern (lines 89-119):
normalise, validate, deduplicate against `seen_emails`, adjust and clamp the
confidence, and append the result. -/
def processEmailMatch (re : Re) (text : String) (base : ℚ)
    (st : List String × List ExtractionResult) (m : String) :
    List String × List ExtractionResult :=
  let email := normalize_email re m
  if !is_valid_email email || st.1.contains email then st
  else
    (email :: st.1,
     st.2 ++ [⟨email, max (1/10) (min 1 (base + email_domain_adjustment re text email)),
               .pattern⟩])

/-- Embedding of `FieldEnricher.extract_emails`: run every pattern's matches
through `processEmailMatch` with a shared `seen_emails` set, then sort by
confidence descending. -/
def extract_emails (re : Re) (text : String) : List ExtractionResult :=
  let st := email_patterns.foldl
    (fun st p => (re.finditer p.1 text).foldl (processEmailMatch re text p.2) st)
    ([], [])
  sortByConfidence st.2

/-! ## Country extraction (`FieldEnricher.extract_countries`, lines 213-356) -/

/-- One entry of the `countries` table. -/
structure CountryInfo where
  code : String
  names : List String
  adjectives : List String
  tld : String
  confidence : ℚ
deriving DecidableEq, Repr

/-- The `countries` table (lines 229-309), in source order. -/
def countries : List CountryInfo :=
  [⟨"US", ["united states", "usa", "u.s.a", "u.s.", "america", "united states of america"],
    ["american"], "us", 9/10⟩,
   ⟨"CA", ["canada"], ["canadian"], "ca", 9/10⟩,
   ⟨"MX", ["mexico"], ["mexican"], "mx", 85/100⟩,
   ⟨"GB", ["united kingdom", "uk", "u.k.", "great britain", "england", "scotland",
           "wales", "northern ireland"],
    ["british", "english", "scottish", "welsh", "northern irish"], "uk", 9/10⟩,
   ⟨"DE", ["germany", "deutschland"], ["german", "deutsche", "deutschen"], "de", 9/10⟩,
   ⟨"FR", ["france"], ["french", "française"], "fr", 9/10⟩,
   ⟨"ES", ["spain", "españa", "espana"], ["spanish", "español", "espanol"], "es", 85/100⟩,
   ⟨"IT", ["italy", "italia"], ["italian", "italiano"], "it", 85/100⟩,
   ⟨"JP", ["japan", "nippon", "nihon"], ["japanese"], "jp", 9/10⟩,
   ⟨"CN", ["china", "peoples republic of china", "prc", "zhongguo", "zhōngguó"],
    ["chinese"], "cn", 9/10⟩,
   ⟨"IN", ["india", "bharat"], ["indian"], "in", 9/10⟩,
   ⟨"SG", ["singapore"], ["singaporean"], "sg", 85/100⟩]

/-- The word-boundary search pattern `r'\b' + re.escape(name.lower()) + r'\b'`
used for country names and adjectives (lines 328-329). -/
def countryWordPattern (w : String) : String :=
  "\\b" ++ reEscape (lowerStr w) ++ "\\b"

/-- The bare country-code pattern of line 345. -/
def country_code_pattern : String := "\\b([A-Z]\x7b2\x7d)\\b"

/-- The TLD of a domain as computed on line 312: `domain.split('.')[-1].lower()`. -/
def domainTld (domain : String) : String := lowerStr (splitLast '.' domain)

/-- The TLD pass (lines 311-320): every table entry whose `tld` equals the
domain's TLD is appended at confidence 0.95 with source `TLD` and recorded
in `seen_codes`. -/
def countryTldStep (tld : String) (st : List String × List ExtractionResult)
    (c : CountryInfo) : List String × List ExtractionResult :=
  if c.tld == tld then (c.code :: st.1, st.2 ++ [⟨c.code, 95/100, .tld⟩]) else st

/-- The text pass (lines 322-342): for every table entry not yet seen, count
name and adjective word matches; on any match append the entry's base
confidence, plus `0.05` when both kinds match, capped at `0.99`. -/
def countryTextStep (re : Re) (text_lower : String)
    (st : List String × List ExtractionResult) (c : CountryInfo) :
    List String × List ExtractionResult :=
  if st.1.contains c.code then st
  else
    let name_matches := c.names.countP (fun n => re.search (countryWordPattern n) text_lower)
    let adj_matches := c.adjectives.countP (fun a => re.search (countryWordPattern a) text_lower)
    if name_matches > 0 || adj_matches > 0 then
      let confidence :=
        if name_matches > 0 && adj_matches > 0 then c.confidence + 5/100 else c.confidence
      (c.code :: st.1, st.2 ++ [⟨c.code, min (99/100) confidence, .pattern⟩])
    else st

/-- The bare-code pass (lines 344-354): each `[A-Z]{2}` match of the
upper-cased text is appended at confidence 0.8 when it is a table key, not
yet seen and a valid ISO code. -/
def countryCodeStep (st : List String × List ExtractionResult) (m : String) :
    List String × List ExtractionResult :=
  if countries.any (fun c => c.code == m) && !st.1.contains m
      && is_valid_country_code m then
    (m :: st.1, st.2 ++ [⟨m, 8/10, .pattern⟩])
  else st

/-- Embedding of `FieldEnricher.extract_countries`. -/
def extract_countries (re : Re) (text domain : String) : List ExtractionResult :=
  let text_lower := lowerStr text
  let tld := domainTld domain
  let st1 := countries.foldl (countryTldStep tld) ([], [])
  let st2 := countries.foldl (countryTextStep re text_lower) st1
  let st3 := (re.finditer country_code_pattern (upperStr text)).foldl countryCodeStep st2
  sortByConfidence st3.2

/-! ## Delete-link extraction (`FieldEnricher.extract_delete_links`,
lines 447-529) -/

/-- The three section patterns with their confidences (lines 462-471). -/
def delete_section_patterns : List (String × ℚ) :=
  [("(?:data\\s*(?:subject\\s*)?access|dsar|sard|right to be forgotten|right to erasure|data deletion|data erasure|data removal)[\\s\\w-]*(?:form|request|portal|page|link|button|click here|visit|go to|at|:)[^\\n]*?((?:https?://|www\\.)[^\\s)\"\x27]+)", 95/100),
   ("(?:privacy|data|personal information)[\\s\\w-]*(?:request|access|delete|remove|erase|modify|update|correct)[\\s\\w-]*(?:form|request|portal|page|link|button|click here|visit|go to|at|:)[^\\n]*?((?:https?://|www\\.)[^\\s)\"\x27]+)", 85/100),
   ("(?:contact|support|help|privacy|data)[\\s\\w-]*(?:form|request|portal|page|link|button|click here|visit|go to|at|:)[^\\n]*?((?:https?://|www\\.)[^\\s)\"\x27]+)", 7/10)]

/-- The two button/anchor patterns with their confidences (lines 508-511). -/
def delete_button_patterns : List (String × ℚ) :=
  [("(?:click here|request access|download data|delete my data|right to be forgotten|right to erasure|data subject access request|dsar|sard)[^\\n]*?((?:https?://|www\\.)[^\\s)\"\x27]+)", 9/10),
   ("<a[^>]*?href=[\"\x27]((?:https?://|www\\.)[^\"\x27]+)[\"\x27][^>]*?>(?:[^<]*?(?:data|privacy|access|delete|remove|erase|forget|dsar|sard|gdpr|ccpa)[^<]*?)</a>", 85/100)]

/-- Protocol coercion (lines 477-478): a protocol-less URL becomes
`https://` plus the URL with leading slashes stripped. -/
def coerceDeleteUrl (url : String) : String :=
  if strStartsWith url "http://" || strStartsWith url "https://" then url
  else "https://" ++ lstripSlashes url

/-- The path keywords of lines 490-494. -/
def delete_path_keywords : List String :=
  ["privacy", "data", "delete", "remove", "erasure",
   "request", "access", "dsar", "gdpr", "ccpa",
   "rights", "portability", "download", "export"]

/-- Processing of one section-pattern match (lines 475-505): coerce the URL,
deduplicate, add the `+0.1` path-keyword bonus and cap at `0.99`. -/
def processSectionMatch (conf : ℚ) (st : List String × List ExtractionResult)
    (m : String) : List String × List ExtractionResult :=
  let url := coerceDeleteUrl m
  if st.1.contains url then st
  else
    let path := splitFirst '?' (lowerStr url)
    let path_confidence : ℚ :=
      if delete_path_keywords.any (fun kw => strContains path kw) then 1/10 else 0
    (url :: st.1, st.2 ++ [⟨url, min (99/100) (conf + path_confidence), .pattern⟩])

/-- Processing of one button-pattern match (lines 513-527): coerce the URL,
deduplicate, append at the pattern's fixed confidence. -/
def processButtonMatch (conf : ℚ) (st : List String × List ExtractionResult)
    (m : String) : List String × List ExtractionResult :=
  let url := coerceDeleteUrl m
  if st.1.contains url then st
  else (url :: st.1, st.2 ++ [⟨url, conf, .pattern⟩])

/-- Embedding of `FieldEnricher.extract_delete_links`. -/
def extract_delete_links (re : Re) (text : String) : List ExtractionResult :=
  let text_lower := lowerStr text
  let st1 := delete_section_patterns.foldl
    (fun st p => (re.finditer p.1 text_lower).foldl (processSectionMatch p.2) st)
    ([], [])
  let st2 := delete_button_patterns.foldl
    (fun st p => (re.finditer p.1 text_lower).foldl (processButtonMatch p.2) st)
    st1
  sortByConfidence st2.2

/-! ## Enrichment entry points (`enrich_email` lines 172-211,
`enrich_country` lines 404-445, `enrich_delete_link` lines 577-616)

`config.Settings` (src/config.py) declares `extract_emails`,
`extract_country` and `extract_delete_link`, but declares **no**
`enable_llm_fallback` field (and no `llm_model`).  Each enrichment function
evaluates `use_llm_fallback and settings.enable_llm_fallback`; Python's
short-circuit `and` means the attribute is only touched when
`use_llm_fallback` is true, and touching it raises `AttributeError`, which
the embedding records as an `Except.error`.  (`main.py` line 451 tries to
assign `settings.enable_llm_fallback` at CLI startup, but a pydantic
settings model equally rejects assignment to an undeclared field, and
`main.py` lines 47-48 read both attributes through `getattr` with defaults,
acknowledging their absence.)  Consequently the LLM-oracle branch of the
source (lines 204-208 etc.) is unreachable and does not appear in the
embedding. -/

/-- The per-field feature flags that `config.Settings` actually declares. -/
structure Settings where
  extract_emails : Bool
  extract_country : Bool
  extract_delete_link : Bool
deriving DecidableEq, Repr

/-- The exception raised by `settings.enable_llm_fallback`
(`config.Settings` declares no such field). -/
def settingsAttributeError : String :=
  "AttributeError: \x27Settings\x27 object has no attribute \x27enable_llm_fallback\x27"

/-- Embedding of `FieldEnricher.enrich_email`: short-circuit on a valid
current email, otherwise take the best pattern result at threshold 0.8, and
otherwise evaluate the LLM-fallback guard (which raises, see above). -/
def enrich_email (re : Re) (text : String) (current_email : Option String)
    (use_llm_fallback : Bool) : Except String (Option ExtractionResult) :=
  let cur := current_email.getD ""
  if cur != "" && is_valid_email cur then
    .ok (some ⟨lowerStr cur, 1, .fallback⟩)
  else
    match (extract_emails re text).head? with
    | some r =>
      if (8/10 : ℚ) ≤ r.confidence then .ok (some r)
      else if use_llm_fallback then .error settingsAttributeError
      else .ok (some r)
    | none =>
      if use_llm_fallback then .error settingsAttributeError
      else .ok none

/-- Embedding of `FieldEnricher.enrich_country`: short-circuit on a valid
current country code, otherwise take the best pattern result at threshold
0.85, and otherwise evaluate the LLM-fallback guard (which raises). -/
def enrich_country (re : Re) (text domain : String) (current_country : Option String)
    (use_llm_fallback : Bool) : Except String (Option ExtractionResult) :=
  let cur := current_country.getD ""
  if cur != "" && is_valid_country_code cur then
    .ok (some ⟨upperStr cur, 1, .fallback⟩)
  else
    match (extract_countries re text domain).head? with
    | some r =>
      if (85/100 : ℚ) ≤ r.confidence then .ok (some r)
      else if use_llm_fallback then .error settingsAttributeError
      else .ok (some r)
    | none =>
      if use_llm_fallback then .error settingsAttributeError
      else .ok none

/-- Embedding of `FieldEnricher.enrich_delete_link`: short-circuit on a
current link starting with `http://`/`https://`, otherwise best pattern
result at threshold 0.8, otherwise the LLM-fallback guard (which raises). -/
def enrich_delete_link (re : Re) (text : String) (current_delete_link : Option String)
    (use_llm_fallback : Bool) : Except String (Option ExtractionResult) :=
  let cur := current_delete_link.getD ""
  if cur != "" && (strStartsWith cur "http://" || strStartsWith cur "https://") then
    .ok (some ⟨cur, 1, .fallback⟩)
  else
    match (extract_delete_links re text).head? with
    | some r =>
      if (8/10 : ℚ) ≤ r.confidence then .ok (some r)
      else if use_llm_fallback then .error settingsAttributeError
      else .ok (some r)
    | none =>
      if use_llm_fallback then .error settingsAttributeError
      else .ok none

/-! ## Company enrichment (`FieldEnricher.enrich_company`, lines 618-745)

Company records are Python dictionaries with string keys; their values are
strings, and `enrich_company` additionally stores a nested metadata
dictionary.  A small JSON-like value type models this. -/

/-- A Python dictionary value as used by `enrich_company`. -/
inductive Val where
  | s (v : String)
  | q (v : ℚ)
  | obj (fields : List (String × Val))

/-- First-match lookup in an association list (Python `d[k]` / `d.get(k)`). -/
def dlookup {α : Type} (d : List (String × α)) (k : String) : Option α :=
  (d.find? (fun p => p.1 == k)).map (fun p => p.2)

/-- Key-replacing insert (Python `d[k] = v`): replaces the value at the
first occurrence of `k`, or appends a new binding. -/
def dinsert {α : Type} : List (String × α) → String → α → List (String × α)
  | [], k, v => [(k, v)]
  | (k', v') :: rest, k, v =>
    if k' == k then (k, v) :: rest else (k', v') :: dinsert rest k v

/-- Python `k in d`. -/
def dHas {α : Type} (d : List (String × α)) (k : String) : Bool :=
  (dlookup d k).isSome

/-- The current value of a string field (Python `company_data.get(k)`
passed to an enrichment function expecting a string or `None`). -/
def dGetStr (d : List (String × Val)) (k : String) : Option String :=
  match dlookup d k with
  | some (Val.s v) => some v
  | _ => none

/-- The string stored on `ExtractionSource.value` in Python. -/
def sourceStr : ExtractionSource → String
  | .pattern => "pattern"
  | .llm => "llm"
  | .tld => "tld"
  | .fallback => "fallback"

/-- Per-field step of `enrich_company` (the three structurally identical
blocks at lines 644-673, 676-705 and 707-736): on a successful extraction
write the value into the enriched record and record a metadata block; on an
extraction returning nothing, record an `existing` metadata block when the
field was already present; on an exception, record an error metadata block
for this field only. -/
def applyFieldOutcome (key : String) (outcome : Except String (Option ExtractionResult))
    (company : List (String × Val)) (now : String)
    (acc : List (String × Val) × List (String × Val)) :
    List (String × Val) × List (String × Val) :=
  match outcome with
  | .ok (some r) =>
    (dinsert acc.1 key (Val.s r.value),
     acc.2 ++ [(key, Val.obj [("value", Val.s r.value), ("confidence", Val.q r.confidence),
                              ("source", Val.s (sourceStr r.source)),
                              ("extracted_at", Val.s now)])])
  | .ok none =>
    if dHas company key then
      (acc.1,
       acc.2 ++ [(key, Val.obj [("value", (dlookup company key).getD (Val.s "")),
                                ("source", Val.s "existing"),
                                ("extracted_at", Val.s now)])])
    else acc
  | .error e =>
    (acc.1, acc.2 ++ [(key, Val.obj [("error", Val.s e), ("extracted_at", Val.s now)])])

/-- Embedding of `FieldEnricher.enrich_company`: start from a copy of the
input record, run the three per-field enrichments (each gated by its
feature flag; the country step additionally requires a `domain` key), and
attach the `_extraction_metadata` block.  `now` stands for
`datetime.utcnow().isoformat()`. -/
def enrich_company (re : Re) (st : Settings) (now : String)
    (company : List (String × Val)) (policy_text : String)
    (use_llm_fallback : Bool) : List (String × Val) :=
  let acc0 := (company, ([] : List (String × Val)))
  let acc1 :=
    if st.extract_emails then
      applyFieldOutcome "email"
        (enrich_email re policy_text (dGetStr company "email") use_llm_fallback)
        company now acc0
    else acc0
  let acc2 :=
    if st.extract_country && dHas company "domain" then
      applyFieldOutcome "country"
        (enrich_country re policy_text ((dGetStr company "domain").getD "")
          (dGetStr company "country") use_llm_fallback)
        company now acc1
    else acc1
  let acc3 :=
    if st.extract_delete_link then
      applyFieldOutcome "delete_link"
        (enrich_delete_link re policy_text (dGetStr company "delete_link") use_llm_fallback)
        company now acc2
    else acc2
  dinsert acc3.1 "_extraction_metadata"
    (Val.obj [("extracted_at", Val.s now), ("fields", Val.obj acc3.2)])

/-! ## Policy discovery (`src/policy_discovery.py`)

URLs are embedded as their parse: `urlparse` splits a URL string into
scheme, netloc (host) and path; the full raw string is kept because
`_is_non_policy_candidate` inspects it as a whole. -/

/-- Embedding of `DiscoveryMethod`. -/
inductive DiscoveryMethod where
  | sitemap
  | footer
  | heuristic
  | link_text
deriving DecidableEq, Repr

/-- Embedding of `DiscoveredPolicy` (lines 35-44). -/
structure DiscoveredPolicy where
  url : String
  doc_type : String
  discovered_via : DiscoveryMethod
  confidence : ℚ
  http_status : Option Int
  is_canonical : Bool
deriving DecidableEq, Repr

/-- A URL together with its `urlparse` decomposition. -/
structure Url where
  raw : String
  host : String
  path : String
deriving DecidableEq, Repr

/-- Embedding of `PolicyDiscovery._is_non_policy_candidate` (lines 182-188):
sitemap/compressed-index artifacts by extension or name. -/
def is_non_policy_candidate (url : Url) : Bool :=
  let lower := lowerStr url.raw
  if strContains lower ".xml" || strContains lower ".gz" then true
  else if strContains lower "sitemap" then true
  else false

/-- The false-positive path fragments of line 214. -/
def badPathFragments : List String :=
  ["/finance/", "/quote/", "/whitepaper", "/photos/", "/sitemap"]

/-- Embedding of `PolicyDiscovery._score_policy_candidate` (lines 190-219). -/
def score_policy_candidate (url : Url) (doc_type : String) (base_confidence : ℚ) : ℚ :=
  let host := lowerStr url.host
  let path := lowerStr url.path
  let s0 := base_confidence
  let s1 := if strStartsWith host "policies." then s0 + 25/100 else s0
  let s2 := if strContains path "/policies/" || strStartsWith path "/policies" then
      s1 + 20/100 else s1
  let s3 := if strContains path "/legal" then s2 + 15/100 else s2
  let s4 := if doc_type == "privacy"
      && ["/privacy", "/privacy-policy", "/privacy_policy"].contains (rstripSlashes path) then
      s3 + 20/100 else s3
  let s5 := if doc_type == "terms"
      && ["/terms", "/terms-of-service", "/terms_of_service", "/tos"].contains (rstripSlashes path) then
      s4 + 20/100 else s4
  let s6 := if doc_type == "dpa"
      && ["/dpa", "/data-processing", "/data_processing"].contains (rstripSlashes path) then
      s5 + 15/100 else s5
  let s7 := if badPathFragments.any (fun bad => strContains path bad) then
      s6 - 35/100 else s6
  let s8 := if is_non_policy_candidate url then s7 - 1/2 else s7
  max 0 (min (99/100) s8)

/-- A per-run discovery mapping `doc_type -> DiscoveredPolicy`, as the
Python dictionaries `discovered` and the per-strategy `policies`. -/
abbrev PolicyDict : Type := List (String × DiscoveredPolicy)

/-- The `DiscoveredPolicy` built for a domain override (lines 125-130):
confidence 0.99, method `heuristic`, default status and canonical flag. -/
def overridePolicy (doc_type url : String) : DiscoveredPolicy :=
  ⟨url, doc_type, .heuristic, 99/100, none, true⟩

/-- One step of the merge loop body (lines 152-153): a strategy candidate
replaces the kept one only when its confidence is strictly higher. -/
def mergeOne (acc : PolicyDict) (p : String × DiscoveredPolicy) : PolicyDict :=
  match dlookup acc p.1 with
  | none => dinsert acc p.1 p.2
  | some cur => if cur.confidence < p.2.confidence then dinsert acc p.1 p.2 else acc

/-- The merge loop (lines 148-153) over one strategy's result dictionary,
skipping every `doc_type` the override table pins (lines 150-151). -/
def mergePolicies (override : Option (List (String × String)))
    (acc : PolicyDict) (policies : PolicyDict) : PolicyDict :=
  policies.foldl
    (fun acc' p =>
      match override with
      | some ov => if dHas ov p.1 then acc' else mergeOne acc' p
      | none => mergeOne acc' p)
    acc

/-- Embedding of `PolicyDiscovery.discover` (lines 111-160), parameterised
by the override-table entry for the domain (`DOMAIN_OVERRIDES.get(...)`,
line 122) and by the outcome of each configured strategy in execution
order: a strategy either raises (`Except.error`, caught and skipped by the
`try/except` of lines 135-157) or returns its candidate dictionary. -/
def discover (override : Option (List (String × String)))
    (strategies : List (Except Unit PolicyDict)) : PolicyDict :=
  let init : PolicyDict :=
    match override with
    | some ov => ov.foldl (fun d p => dinsert d p.1 (overridePolicy p.1 p.2)) []
    | none => []
  strategies.foldl
    (fun acc s =>
      match s with
      | .ok policies => mergePolicies override acc policies
      | .error _ => acc)
    init

/-- Keys of an association list. -/
def dkeys {α : Type} (d : List (String × α)) : List String := d.map Prod.fst

/-- One step of the `mergePolicies` fold. -/
def mergeStep (override : Option (List (String × String)))
    (acc : PolicyDict) (p : String × DiscoveredPolicy) : PolicyDict :=
  match override with
  | some ov => if dHas ov p.1 then acc else mergeOne acc p
  | none => mergeOne acc p

/-! ## `discover` decomposition -/

/-- One step of the strategy loop of `discover` (lines 135-157): an ok
strategy merges its dictionary, a raising strategy contributes nothing. -/
def strategyStep (override : Option (List (String × String)))
    (acc : PolicyDict) (s : Except Unit PolicyDict) : PolicyDict :=
  match s with
  | .ok policies => mergePolicies override acc policies
  | .error _ => acc

/-- The initial dictionary of `discover`: the override insertions of
lines 123-130. -/
def discoverInit : Option (List (String × String)) → PolicyDict
  | some ov => ov.foldl (fun d p => dinsert d p.1 (overridePolicy p.1 p.2)) []
  | none => []

/-- The state threaded through every extraction cascade: the `seen` set and
the accumulated results. -/
abbrev ExtractState : Type := List String × List ExtractionResult

/-! ## Email-cascade invariant (C3, C4) -/

/-- Invariant of the email cascade: result values are pairwise distinct,
recorded in `seen_emails`, validator-approved, and confidence-clamped to
`[0.1, 1]`. -/
def EmailInv (st : ExtractState) : Prop :=
  (st.2.map (fun r => r.value)).Nodup ∧
  ∀ r ∈ st.2, r.value ∈ st.1 ∧ is_valid_email r.value = true ∧
    1/10 ≤ r.confidence ∧ r.confidence ≤ 1

/-! ## Country-cascade invariant (C4, C7) -/

/-- Invariant of the country cascade: result values are pairwise distinct,
recorded in `seen_codes`, and confidence-bounded by `[0, 0.99]`. -/
def CountryInv (st : ExtractState) : Prop :=
  (st.2.map (fun r => r.value)).Nodup ∧
  ∀ r ∈ st.2, r.value ∈ st.1 ∧ 0 ≤ r.confidence ∧ r.confidence ≤ 99/100

/-! ## Delete-link confidence bounds (C4) -/

/-- Confidence bounds of the delete-link cascade. -/
def DeleteInv (st : ExtractState) : Prop :=
  ∀ r ∈ st.2, 0 ≤ r.confidence ∧ r.confidence ≤ 99/100

/-- The text of the C4 counterexample: the privacy contact address and a
second occurrence of the company's own domain. -/
def emailCounterText : String := "privacy@example.com example.com"

/-- A regex engine behaving exactly as Python `re` behaves on
`emailCounterText` at the call sites of the email cascade: the `privacy@`
family and the two generic families match `privacy@example.com` (the other
families match nothing), the word-boundary search for the escaped domain
`example.com` succeeds, and the three normalising substitutions leave
`privacy@example.com` unchanged (it contains no `at`/`dot` token and no
bracket). -/
def reEmailCounter : Re where
  finditer := fun p t =>
    if t == emailCounterText
        && ((p == (email_patterns.getD 0 ("", 0)).1)
            || (p == (email_patterns.getD 3 ("", 0)).1)
            || (p == (email_patterns.getD 4 ("", 0)).1)) then
      ["privacy@example.com"]
    else []
  search := fun p t => p == "\\bexample\\.com\\b" && t == emailCounterText
  sub := fun _ _ s => s

/-! ## Theorems -/

example : is_valid_email "legal@acme.com" = true := by decide
example : is_valid_email "Legal@Acme.com" = true := by decide
example : is_valid_email "privacy@example.com" = true := by decide
example : is_valid_email "no-at-sign.com" = false := by decide
example : is_valid_email "a@b" = false := by decide
example : is_valid_country_code "de" = true := by decide
example : is_valid_country_code "XX" = false := by decide

/-! ## Association-list dictionary lemmas -/

theorem dlookup_nil {α : Type} (k : String) : dlookup ([] : List (String × α)) k = none := rfl

theorem dlookup_cons {α : Type} (k' : String) (v' : α) (d : List (String × α)) (k : String) :
    dlookup ((k', v') :: d) k = if k' = k then some v' else dlookup d k := by
  simp only [dlookup, List.find?]
  by_cases h : k' = k
  · simp [h]
  · simp [h, beq_eq_false_iff_ne.mpr h]

theorem dlookup_dinsert_self {α : Type} (d : List (String × α)) (k : String) (v : α) :
    dlookup (dinsert d k v) k = some v := by
  induction d with
  | nil => simp [dinsert, dlookup_cons]
  | cons p rest ih =>
    obtain ⟨a, b⟩ := p
    by_cases h : a = k
    · subst h
      simp [dinsert, dlookup_cons]
    · have hb : (a == k) = false := beq_eq_false_iff_ne.mpr h
      simp only [dinsert, hb, Bool.false_eq_true, if_false]
      rw [dlookup_cons, if_neg h]
      exact ih

theorem dlookup_dinsert_ne {α : Type} (d : List (String × α)) (k k' : String) (v : α)
    (h : k' ≠ k) : dlookup (dinsert d k v) k' = dlookup d k' := by
  induction d with
  | nil => simp [dinsert, dlookup_cons, dlookup_nil, Ne.symm h]
  | cons p rest ih =>
    obtain ⟨a, b⟩ := p
    by_cases hp : a = k
    · subst hp
      simp [dinsert, dlookup_cons, Ne.symm h]
    · have hb : (a == k) = false := beq_eq_false_iff_ne.mpr hp
      simp only [dinsert, hb, Bool.false_eq_true, if_false]
      rw [dlookup_cons, dlookup_cons, ih]

theorem mem_dkeys_dinsert {α : Type} (d : List (String × α)) (k : String) (v : α)
    (a : String) : a ∈ dkeys (dinsert d k v) ↔ a ∈ dkeys d ∨ a = k := by
  induction d with
  | nil => simp [dinsert, dkeys]
  | cons p rest ih =>
    obtain ⟨b, c⟩ := p
    by_cases hp : b = k
    · subst hp
      simp only [dinsert, beq_self_eq_true, if_true, dkeys, List.map_cons, List.mem_cons]
      constructor
      · rintro (h | h)
        · exact Or.inr h
        · exact Or.inl (Or.inr h)
      · rintro (h | h)
        · rcases h with h | h
          · exact Or.inl h
          · exact Or.inr h
        · exact Or.inl h
    · have hb : (b == k) = false := beq_eq_false_iff_ne.mpr hp
      simp only [dinsert, hb, Bool.false_eq_true, if_false, dkeys, List.map_cons,
        List.mem_cons] at *
      constructor
      · rintro (h | h)
        · exact Or.inl (Or.inl h)
        · rcases ih.mp h with h' | h'
          · exact Or.inl (Or.inr h')
          · exact Or.inr h'
      · rintro (h | h)
        · rcases h with h' | h'
          · exact Or.inl h'
          · exact Or.inr (ih.mpr (Or.inl h'))
        · exact Or.inr (ih.mpr (Or.inr h))

theorem dkeys_nodup_dinsert {α : Type} (d : List (String × α)) (k : String) (v : α)
    (h : (dkeys d).Nodup) : (dkeys (dinsert d k v)).Nodup := by
  induction d with
  | nil => simp [dinsert, dkeys]
  | cons p rest ih =>
    obtain ⟨b, c⟩ := p
    simp only [dkeys, List.map_cons, List.nodup_cons] at h
    by_cases hp : b = k
    · subst hp
      simp only [dinsert, beq_self_eq_true, if_true, dkeys, List.map_cons, List.nodup_cons]
      exact ⟨h.1, h.2⟩
    · have hb : (b == k) = false := beq_eq_false_iff_ne.mpr hp
      simp only [dinsert, hb, Bool.false_eq_true, if_false, dkeys, List.map_cons,
        List.nodup_cons]
      refine ⟨fun hmem => ?_, ih h.2⟩
      rcases (mem_dkeys_dinsert rest k v b).mp hmem with h' | h'
      · exact h.1 h'
      · exact hp h'

/-! ## Merge-step lemmas for `discover` -/

theorem mergeOne_lookup_ne (acc : PolicyDict) (p : String × DiscoveredPolicy)
    (dt : String) (h : dt ≠ p.1) : dlookup (mergeOne acc p) dt = dlookup acc dt := by
  unfold mergeOne
  cases dlookup acc p.1 with
  | none => exact dlookup_dinsert_ne acc p.1 dt p.2 h
  | some cur =>
    by_cases hc : cur.confidence < p.2.confidence
    · simp only [hc, if_true]
      exact dlookup_dinsert_ne acc p.1 dt p.2 h
    · simp [hc]

theorem mergeOne_lookup_self (acc : PolicyDict) (p : String × DiscoveredPolicy)
    (cur : DiscoveredPolicy) (h : dlookup acc p.1 = some cur) :
    dlookup (mergeOne acc p) p.1 =
      if cur.confidence < p.2.confidence then some p.2 else some cur := by
  unfold mergeOne
  rw [h]
  by_cases hc : cur.confidence < p.2.confidence
  · simp only [hc, if_true]
    exact dlookup_dinsert_self acc p.1 p.2
  · simp [hc, h]

theorem mergeOne_lookup_none (acc : PolicyDict) (p : String × DiscoveredPolicy)
    (h : dlookup acc p.1 = none) : dlookup (mergeOne acc p) p.1 = some p.2 := by
  unfold mergeOne
  rw [h]
  exact dlookup_dinsert_self acc p.1 p.2

theorem mergeOne_ge (acc : PolicyDict) (p : String × DiscoveredPolicy) :
    ∃ q, dlookup (mergeOne acc p) p.1 = some q ∧ p.2.confidence ≤ q.confidence := by
  cases h : dlookup acc p.1 with
  | none => exact ⟨p.2, mergeOne_lookup_none acc p h, le_refl _⟩
  | some cur =>
    by_cases hc : cur.confidence < p.2.confidence
    · exact ⟨p.2, by rw [mergeOne_lookup_self acc p cur h, if_pos hc], le_refl _⟩
    · exact ⟨cur, by rw [mergeOne_lookup_self acc p cur h, if_neg hc], le_of_not_lt hc⟩

theorem mergeOne_mono (acc : PolicyDict) (p : String × DiscoveredPolicy)
    (dt : String) (cur : DiscoveredPolicy) (h : dlookup acc dt = some cur) :
    ∃ q, dlookup (mergeOne acc p) dt = some q ∧ cur.confidence ≤ q.confidence := by
  by_cases hdt : dt = p.1
  · subst hdt
    by_cases hc : cur.confidence < p.2.confidence
    · exact ⟨p.2, by rw [mergeOne_lookup_self acc p cur h, if_pos hc], le_of_lt hc⟩
    · exact ⟨cur, by rw [mergeOne_lookup_self acc p cur h, if_neg hc], le_refl _⟩
  · exact ⟨cur, by rw [mergeOne_lookup_ne acc p dt hdt, h], le_refl _⟩

theorem mergeOne_dkeys_nodup (acc : PolicyDict) (p : String × DiscoveredPolicy)
    (h : (dkeys acc).Nodup) : (dkeys (mergeOne acc p)).Nodup := by
  unfold mergeOne
  cases dlookup acc p.1 with
  | none => exact dkeys_nodup_dinsert acc p.1 p.2 h
  | some cur =>
    by_cases hc : cur.confidence < p.2.confidence
    · simp only [hc, if_true]
      exact dkeys_nodup_dinsert acc p.1 p.2 h
    · simpa [hc] using h

theorem mergePolicies_eq_foldl (override : Option (List (String × String)))
    (acc : PolicyDict) (policies : PolicyDict) :
    mergePolicies override acc policies = policies.foldl (mergeStep override) acc := by
  cases override with
  | none => rfl
  | some ov => rfl

theorem mergeStep_mono (override : Option (List (String × String)))
    (acc : PolicyDict) (p : String × DiscoveredPolicy) (dt : String)
    (cur : DiscoveredPolicy) (h : dlookup acc dt = some cur) :
    ∃ q, dlookup (mergeStep override acc p) dt = some q ∧
      cur.confidence ≤ q.confidence := by
  unfold mergeStep
  cases override with
  | none => exact mergeOne_mono acc p dt cur h
  | some ov =>
    by_cases hov : dHas ov p.1
    · exact ⟨cur, by simp [hov, h], le_refl _⟩
    · simp only [hov, Bool.false_eq_true, if_false]
      exact mergeOne_mono acc p dt cur h

theorem mergePolicies_mono (override : Option (List (String × String)))
    (policies : PolicyDict) (acc : PolicyDict) (dt : String)
    (cur : DiscoveredPolicy) (h : dlookup acc dt = some cur) :
    ∃ q, dlookup (mergePolicies override acc policies) dt = some q ∧
      cur.confidence ≤ q.confidence := by
  rw [mergePolicies_eq_foldl]
  induction policies generalizing acc cur with
  | nil => exact ⟨cur, h, le_refl _⟩
  | cons p rest ih =>
    obtain ⟨q, hq, hle⟩ := mergeStep_mono override acc p dt cur h
    obtain ⟨q', hq', hle'⟩ := ih (mergeStep override acc p) q hq
    exact ⟨q', hq', le_trans hle hle'⟩

theorem dlookup_eq_none_iff {α : Type} (d : List (String × α)) (k : String) :
    dlookup d k = none ↔ k ∉ dkeys d := by
  induction d with
  | nil => simp [dlookup_nil, dkeys]
  | cons p rest ih =>
    obtain ⟨a, b⟩ := p
    rw [dlookup_cons]
    by_cases h : a = k
    · simp [h, dkeys]
    · simp [h, dkeys, Ne.symm h]
      simpa [dkeys] using ih

theorem mergePolicies_override_skip (ov : List (String × String)) (ps : PolicyDict)
    (dt : String) (hov : dHas ov dt = true) :
    ∀ acc, dlookup (mergePolicies (some ov) acc ps) dt = dlookup acc dt := by
  induction ps with
  | nil => intro acc; rfl
  | cons hd rest ih =>
    intro acc
    rw [mergePolicies_eq_foldl, List.foldl_cons, ← mergePolicies_eq_foldl, ih]
    unfold mergeStep
    by_cases hh : dHas ov hd.1
    · simp [hh]
    · simp only [hh, Bool.false_eq_true, if_false]
      refine mergeOne_lookup_ne acc hd dt (fun heq => ?_)
      rw [heq] at hov
      exact absurd hov (by simp [hh])

theorem foldl_mergeStep_ge (override : Option (List (String × String)))
    (p : String × DiscoveredPolicy)
    (hnov : ∀ ov, override = some ov → dHas ov p.1 = false) (ps : PolicyDict) :
    ∀ acc, p ∈ ps →
      ∃ q, dlookup (ps.foldl (mergeStep override) acc) p.1 = some q ∧
        p.2.confidence ≤ q.confidence := by
  induction ps with
  | nil => intro acc h; cases h
  | cons hd rest ih =>
    intro acc hmem
    simp only [List.foldl_cons]
    rcases List.mem_cons.mp hmem with heq | hmem'
    · subst heq
      have hstep : mergeStep override acc p = mergeOne acc p := by
        unfold mergeStep
        cases override with
        | none => rfl
        | some ov => simp [hnov ov rfl]
      rw [hstep]
      obtain ⟨q, hq, hle⟩ := mergeOne_ge acc p
      obtain ⟨q', hq', hle'⟩ := mergePolicies_mono override rest (mergeOne acc p) p.1 q hq
      rw [mergePolicies_eq_foldl] at hq'
      exact ⟨q', hq', le_trans hle hle'⟩
    · exact ih (mergeStep override acc hd) hmem'

theorem mergeStep_dkeys_nodup (override : Option (List (String × String)))
    (acc : PolicyDict) (s : String × DiscoveredPolicy)
    (h : (dkeys acc).Nodup) : (dkeys (mergeStep override acc s)).Nodup := by
  unfold mergeStep
  cases override with
  | none => exact mergeOne_dkeys_nodup acc s h
  | some ov =>
    by_cases hh : dHas ov s.1
    · simpa [hh] using h
    · simp only [hh, Bool.false_eq_true, if_false]
      exact mergeOne_dkeys_nodup acc s h

theorem foldl_mergeStep_dkeys_nodup (override : Option (List (String × String)))
    (ps : PolicyDict) :
    ∀ acc, (dkeys acc).Nodup → (dkeys (ps.foldl (mergeStep override) acc)).Nodup := by
  induction ps with
  | nil => intro acc h; exact h
  | cons hd rest ih =>
    intro acc h
    simp only [List.foldl_cons]
    exact ih _ (mergeStep_dkeys_nodup override acc hd h)

theorem discover_eq (override : Option (List (String × String)))
    (ss : List (Except Unit PolicyDict)) :
    discover override ss = ss.foldl (strategyStep override) (discoverInit override) := by
  cases override with
  | none => rfl
  | some ov => rfl

theorem dlookup_foldl_override_notmem (l : List (String × String)) :
    ∀ (d0 : PolicyDict) (k : String), k ∉ l.map Prod.fst →
      dlookup (l.foldl (fun d p => dinsert d p.1 (overridePolicy p.1 p.2)) d0) k
        = dlookup d0 k := by
  induction l with
  | nil => intro d0 k _; rfl
  | cons hd rest ih =>
    intro d0 k hk
    simp only [List.map_cons, List.mem_cons] at hk
    push_neg at hk
    simp only [List.foldl_cons]
    rw [ih _ k hk.2, dlookup_dinsert_ne _ _ _ _ hk.1]

theorem dlookup_discoverInit (ov : List (String × String)) (k url : String)
    (hnd : (ov.map Prod.fst).Nodup) (h : dlookup ov k = some url) :
    dlookup (discoverInit (some ov)) k = some (overridePolicy k url) := by
  show dlookup (ov.foldl (fun d p => dinsert d p.1 (overridePolicy p.1 p.2)) []) k = _
  have main : ∀ (l : List (String × String)) (d0 : PolicyDict),
      (l.map Prod.fst).Nodup → dlookup l k = some url →
      dlookup (l.foldl (fun d p => dinsert d p.1 (overridePolicy p.1 p.2)) d0) k
        = some (overridePolicy k url) := by
    intro l
    induction l with
    | nil => intro d0 _ habs; simp [dlookup_nil] at habs
    | cons hd rest ih =>
      intro d0 hnd' hl
      obtain ⟨a, b⟩ := hd
      simp only [List.map_cons, List.nodup_cons] at hnd'
      rw [dlookup_cons] at hl
      by_cases hak : a = k
      · subst hak
        rw [if_pos rfl] at hl
        injection hl with hb
        subst hb
        simp only [List.foldl_cons]
        rw [dlookup_foldl_override_notmem rest _ a hnd'.1]
        exact dlookup_dinsert_self d0 a (overridePolicy a b)
      · rw [if_neg hak] at hl
        simp only [List.foldl_cons]
        exact ih _ hnd'.2 hl
  exact main ov [] hnd h

theorem dkeys_nodup_discoverInit (override : Option (List (String × String))) :
    (dkeys (discoverInit override)).Nodup := by
  cases override with
  | none => simp [discoverInit, dkeys]
  | some ov =>
    show (dkeys (ov.foldl (fun d p => dinsert d p.1 (overridePolicy p.1 p.2)) [])).Nodup
    have main : ∀ (l : List (String × String)) (d0 : PolicyDict), (dkeys d0).Nodup →
        (dkeys (l.foldl (fun d p => dinsert d p.1 (overridePolicy p.1 p.2)) d0)).Nodup := by
      intro l
      induction l with
      | nil => intro d0 h; exact h
      | cons hd rest ih =>
        intro d0 h
        simp only [List.foldl_cons]
        exact ih _ (dkeys_nodup_dinsert d0 hd.1 (overridePolicy hd.1 hd.2) h)
    exact main ov [] (by simp [dkeys])

theorem strategyStep_dkeys_nodup (override : Option (List (String × String)))
    (acc : PolicyDict) (s : Except Unit PolicyDict)
    (h : (dkeys acc).Nodup) : (dkeys (strategyStep override acc s)).Nodup := by
  cases s with
  | error e => exact h
  | ok ps =>
    show (dkeys (mergePolicies override acc ps)).Nodup
    rw [mergePolicies_eq_foldl]
    exact foldl_mergeStep_dkeys_nodup override ps acc h

theorem foldl_strategyStep_dkeys_nodup (override : Option (List (String × String)))
    (ss : List (Except Unit PolicyDict)) :
    ∀ acc, (dkeys acc).Nodup → (dkeys (ss.foldl (strategyStep override) acc)).Nodup := by
  induction ss with
  | nil => intro acc h; exact h
  | cons s rest ih =>
    intro acc h
    simp only [List.foldl_cons]
    exact ih _ (strategyStep_dkeys_nodup override acc s h)

theorem foldl_strategyStep_mono (override : Option (List (String × String)))
    (ss : List (Except Unit PolicyDict)) :
    ∀ (acc : PolicyDict) (dt : String) (cur : DiscoveredPolicy),
      dlookup acc dt = some cur →
      ∃ q, dlookup (ss.foldl (strategyStep override) acc) dt = some q ∧
        cur.confidence ≤ q.confidence := by
  induction ss with
  | nil => intro acc dt cur h; exact ⟨cur, h, le_refl _⟩
  | cons s rest ih =>
    intro acc dt cur h
    simp only [List.foldl_cons]
    have hstep : ∃ q, dlookup (strategyStep override acc s) dt = some q ∧
        cur.confidence ≤ q.confidence := by
      cases s with
      | error e => exact ⟨cur, h, le_refl _⟩
      | ok ps => exact mergePolicies_mono override ps acc dt cur h
    obtain ⟨q, hq, hle⟩ := hstep
    obtain ⟨q', hq', hle'⟩ := ih _ dt q hq
    exact ⟨q', hq', le_trans hle hle'⟩

/-- C1: for every domain with an override-table entry, `discover` returns,
for each overridden `doc_type`, exactly the override URL at confidence
0.99, and no strategy result ever replaces it, whatever the strategies
found. -/
theorem discover_override_wins (ov : List (String × String))
    (ss : List (Except Unit PolicyDict)) (dt url : String)
    (hnd : (ov.map Prod.fst).Nodup) (h : dlookup ov dt = some url) :
    dlookup (discover (some ov) ss) dt = some (overridePolicy dt url) ∧
    (overridePolicy dt url).url = url ∧
    (overridePolicy dt url).confidence = 99/100 ∧
    (overridePolicy dt url).doc_type = dt := by
  refine ⟨?_, rfl, rfl, rfl⟩
  rw [discover_eq]
  have hhas : dHas ov dt = true := by simp [dHas, h]
  have hinit := dlookup_discoverInit ov dt url hnd h
  have main : ∀ (l : List (Except Unit PolicyDict)) (acc : PolicyDict),
      dlookup acc dt = some (overridePolicy dt url) →
      dlookup (l.foldl (strategyStep (some ov)) acc) dt
        = some (overridePolicy dt url) := by
    intro l
    induction l with
    | nil => intro acc hacc; exact hacc
    | cons s rest ih =>
      intro acc hacc
      simp only [List.foldl_cons]
      refine ih _ ?_
      cases s with
      | error e => exact hacc
      | ok ps =>
        show dlookup (mergePolicies (some ov) acc ps) dt = _
        rw [mergePolicies_override_skip ov ps dt hhas acc]
        exact hacc
  exact main ss _ hinit

/-- Witness for C1 at the `google.com` entry of `DOMAIN_OVERRIDES`: even a
competing strategy candidate at confidence 0.98 cannot displace the
override. -/
theorem discover_override_wins_witness :
    dlookup
      (discover (some [("privacy", "https://policies.google.com/privacy")])
        [Except.ok [("privacy",
          ⟨"https://google.com/privacy", "privacy", .sitemap, 98/100, none, true⟩)]])
      "privacy"
      = some (overridePolicy "privacy" "https://policies.google.com/privacy") :=
  (discover_override_wins [("privacy", "https://policies.google.com/privacy")]
    [Except.ok [("privacy",
      ⟨"https://google.com/privacy", "privacy", .sitemap, 98/100, none, true⟩)]]
    "privacy" "https://policies.google.com/privacy"
    (by simp) (by simp [dlookup, List.find?])).1

/-- C2: every `discover` run returns at most one policy per `doc_type`; for
every non-overridden `doc_type` the kept candidate dominates the confidence
of every candidate any strategy returned for it; and a later candidate
replaces the kept one exactly when its confidence is strictly higher. -/
theorem discover_merge_max :
    ∀ (override : Option (List (String × String))) (ss : List (Except Unit PolicyDict)),
    (dkeys (discover override ss)).Nodup ∧
    (∀ p : String × DiscoveredPolicy,
      (∀ ov, override = some ov → dHas ov p.1 = false) →
      ∀ ps : PolicyDict, Except.ok ps ∈ ss → p ∈ ps →
        ∃ kept, dlookup (discover override ss) p.1 = some kept ∧
          p.2.confidence ≤ kept.confidence) ∧
    (∀ (acc : PolicyDict) (p : String × DiscoveredPolicy) (cur : DiscoveredPolicy),
      dlookup acc p.1 = some cur →
      dlookup (mergeOne acc p) p.1 =
        if cur.confidence < p.2.confidence then some p.2 else some cur) := by
  intro override ss
  refine ⟨?_, ?_, fun acc p cur h => mergeOne_lookup_self acc p cur h⟩
  · rw [discover_eq]
    exact foldl_strategyStep_dkeys_nodup override ss _
      (dkeys_nodup_discoverInit override)
  · intro p hnov ps hss hp
    rw [discover_eq]
    obtain ⟨l1, l2, rfl⟩ := List.append_of_mem hss
    rw [List.foldl_append, List.foldl_cons]
    have hok : strategyStep override (l1.foldl (strategyStep override) (discoverInit override))
        (Except.ok ps)
        = ps.foldl (mergeStep override)
            (l1.foldl (strategyStep override) (discoverInit override)) := by
      show mergePolicies override _ ps = _
      rw [mergePolicies_eq_foldl]
    rw [hok]
    obtain ⟨q, hq, hle⟩ := foldl_mergeStep_ge override p hnov ps _ hp
    obtain ⟨q', hq', hle'⟩ := foldl_strategyStep_mono override l2 _ p.1 q hq
    exact ⟨q', hq', le_trans hle hle'⟩

/-- Witness for C2: one strategy returning one privacy candidate; the kept
result dominates it and the run is key-unique. -/
theorem discover_merge_max_witness :
    (dkeys (discover none
      [Except.ok [("privacy",
        ⟨"https://acme.com/privacy", "privacy", .footer, 8/10, none, true⟩)]])).Nodup ∧
    ∃ kept,
      dlookup (discover none
        [Except.ok [("privacy",
          ⟨"https://acme.com/privacy", "privacy", .footer, 8/10, none, true⟩)]])
        "privacy" = some kept ∧
      (8/10 : ℚ) ≤ kept.confidence := by
  obtain ⟨h1, h2, _⟩ := discover_merge_max none
    [Except.ok [("privacy",
      ⟨"https://acme.com/privacy", "privacy", .footer, 8/10, none, true⟩)]]
  refine ⟨h1, ?_⟩
  exact h2 ("privacy", ⟨"https://acme.com/privacy", "privacy", .footer, 8/10, none, true⟩)
    (fun ov hov => by cases hov)
    [("privacy", ⟨"https://acme.com/privacy", "privacy", .footer, 8/10, none, true⟩)]
    (by simp) (by simp)

/-- C9: a strategy that raises contributes nothing and does not disturb the
other strategies' contributions (removing it from the run leaves the result
unchanged), and when every strategy fails with no override the result is
the empty mapping — a value, not an exception. -/
theorem discover_failure_semantics :
    (∀ (override : Option (List (String × String)))
       (l1 l2 : List (Except Unit PolicyDict)),
      discover override (l1 ++ Except.error () :: l2) = discover override (l1 ++ l2)) ∧
    (∀ ss : List (Except Unit PolicyDict),
      (∀ s ∈ ss, s = Except.error ()) → discover none ss = []) := by
  constructor
  · intro override l1 l2
    rw [discover_eq, discover_eq, List.foldl_append, List.foldl_append, List.foldl_cons]
    rfl
  · intro ss h
    have main : ∀ (l : List (Except Unit PolicyDict)) (acc : PolicyDict),
        (∀ s ∈ l, s = Except.error ()) → l.foldl (strategyStep none) acc = acc := by
      intro l
      induction l with
      | nil => intro acc _; rfl
      | cons s rest ih =>
        intro acc hl
        simp only [List.foldl_cons]
        rw [hl s (by simp)]
        exact ih acc (fun s' hs' => hl s' (by simp [hs']))
    rw [discover_eq]
    exact main ss _ h

/-- Witness for C9: two failing strategies and no override yield the empty
mapping. -/
theorem discover_failure_semantics_witness :
    discover none [Except.error (), Except.error ()] = [] :=
  discover_failure_semantics.2 [Except.error (), Except.error ()] (by simp)

theorem scoreIteAdd (c : Prop) [Decidable c] (s a : ℚ) :
    (if c then s + a else s) = s + (if c then a else 0) := by
  split_ifs <;> simp

theorem scoreIteSub (c : Prop) [Decidable c] (s a : ℚ) :
    (if c then s - a else s) = s + (if c then -a else 0) := by
  split_ifs <;> simp [sub_eq_add_neg]

/-- C8: the candidate score is exactly the base confidence plus the
additive adjustments (+0.25 `policies.` host; +0.20 `/policies` path;
+0.15 `/legal`; +0.20/+0.20/+0.15 canonical path per doc type; -0.35 bad
path fragment; -0.50 sitemap artifact), clamped to [0, 0.99]. -/
theorem score_policy_candidate_spec (url : Url) (doc_type : String) (base : ℚ) :
    score_policy_candidate url doc_type base =
      max 0 (min (99/100)
        (base
          + (if strStartsWith (lowerStr url.host) "policies." then 25/100 else 0)
          + (if strContains (lowerStr url.path) "/policies/"
                || strStartsWith (lowerStr url.path) "/policies" then 20/100 else 0)
          + (if strContains (lowerStr url.path) "/legal" then 15/100 else 0)
          + (if doc_type == "privacy"
                && ["/privacy", "/privacy-policy", "/privacy_policy"].contains
                    (rstripSlashes (lowerStr url.path)) then 20/100 else 0)
          + (if doc_type == "terms"
                && ["/terms", "/terms-of-service", "/terms_of_service", "/tos"].contains
                    (rstripSlashes (lowerStr url.path)) then 20/100 else 0)
          + (if doc_type == "dpa"
                && ["/dpa", "/data-processing", "/data_processing"].contains
                    (rstripSlashes (lowerStr url.path)) then 15/100 else 0)
          + (if badPathFragments.any (fun bad => strContains (lowerStr url.path) bad)
              then -(35/100) else 0)
          + (if is_non_policy_candidate url then -(1/2) else 0))) := by
  unfold score_policy_candidate
  simp only [scoreIteAdd, scoreIteSub]

/-! ## Fold invariants for the extraction cascades -/

theorem foldl_inv {α σ : Type} (step : σ → α → σ) (Inv : σ → Prop)
    (hstep : ∀ st x, Inv st → Inv (step st x)) :
    ∀ (l : List α) (st : σ), Inv st → Inv (l.foldl step st) := by
  intro l
  induction l with
  | nil => intro st h; exact h
  | cons x rest ih => intro st h; exact ih _ (hstep st x h)

theorem foldl_mem_mono {α : Type} (step : ExtractState → α → ExtractState)
    (hstep : ∀ st x r, r ∈ st.2 → r ∈ (step st x).2) (l : List α) :
    ∀ (st : ExtractState) (r : ExtractionResult), r ∈ st.2 → r ∈ (l.foldl step st).2 := by
  induction l with
  | nil => intro st r h; exact h
  | cons x rest ih => intro st r h; exact ih _ r (hstep st x r h)

theorem sortByConfidence_perm (rs : List ExtractionResult) :
    (sortByConfidence rs).Perm rs :=
  List.mergeSort_perm rs _

theorem sortByConfidence_nil : sortByConfidence [] = [] := by
  simpa using List.perm_nil.mp (sortByConfidence_perm [])

theorem sortByConfidence_singleton (r : ExtractionResult) :
    sortByConfidence [r] = [r] :=
  List.perm_singleton.mp (sortByConfidence_perm [r])

theorem mem_sortByConfidence {r : ExtractionResult} {rs : List ExtractionResult} :
    r ∈ sortByConfidence rs ↔ r ∈ rs := List.mem_mergeSort

theorem processEmailMatch_inv (re : Re) (text : String) (base : ℚ)
    (st : ExtractState) (m : String) (h : EmailInv st) :
    EmailInv (processEmailMatch re text base st m) := by
  unfold processEmailMatch
  by_cases hval : is_valid_email (normalize_email re m) = true
  · by_cases hseen : st.1.contains (normalize_email re m) = true
    · rw [if_pos (by rw [hval, hseen]; rfl)]
      exact h
    · have hseen' : st.1.contains (normalize_email re m) = false := by simpa using hseen
      have hmem : normalize_email re m ∉ st.1 := by simpa using hseen'
      rw [if_neg (by rw [hval, hseen']; simp)]
      constructor
      · rw [List.map_append, List.map_singleton, List.nodup_append]
        refine ⟨h.1, List.nodup_singleton _, ?_⟩
        intro v hv
        simp only [List.mem_singleton]
        intro hveq
        subst hveq
        obtain ⟨r, hr, hrv⟩ := List.mem_map.mp hv
        exact hmem (hrv ▸ (h.2 r hr).1)
      · intro r hr
        rcases List.mem_append.mp hr with hold | hnew
        · obtain ⟨h1, h2, h3⟩ := h.2 r hold
          exact ⟨List.mem_cons_of_mem _ h1, h2, h3⟩
        · rw [List.mem_singleton] at hnew
          subst hnew
          refine ⟨List.mem_cons_self _ _, hval, le_max_left _ _, ?_⟩
          exact max_le (by norm_num) (min_le_left _ _)
  · have hval' : is_valid_email (normalize_email re m) = false := by simpa using hval
    rw [if_pos (by rw [hval']; rfl)]
    exact h

theorem extract_emails_state_inv (re : Re) (text : String) :
    EmailInv (email_patterns.foldl
      (fun st p => (re.finditer p.1 text).foldl (processEmailMatch re text p.2) st)
      ([], [])) := by
  refine foldl_inv _ EmailInv (fun st p hp => ?_) email_patterns ([], []) ⟨by simp, by simp⟩
  exact foldl_inv _ EmailInv (fun st' m hm => processEmailMatch_inv re text p.2 st' m hm)
    (re.finditer p.1 text) st hp

/-- C3: one call to `extract_emails` never returns two results with the
same (normalised) email value, and every returned value passes
`is_valid_email` — for every regex-engine behaviour and every text. -/
theorem extract_emails_dedup_and_valid (re : Re) (text : String) :
    ((extract_emails re text).map (fun r => r.value)).Nodup ∧
    ∀ r ∈ extract_emails re text, is_valid_email r.value = true := by
  have hinv := extract_emails_state_inv re text
  constructor
  · have hperm : (extract_emails re text).Perm
        (email_patterns.foldl
          (fun st p => (re.finditer p.1 text).foldl (processEmailMatch re text p.2) st)
          ([], [])).2 := sortByConfidence_perm _
    exact (hperm.map (fun r => r.value)).nodup_iff.mpr hinv.1
  · intro r hr
    exact (hinv.2 r (mem_sortByConfidence.mp hr)).2.1

/-- Appending a result whose value is fresh preserves the country
invariant. -/
theorem countryInv_push (st : ExtractState) (v : String) (conf : ℚ)
    (srcx : ExtractionSource) (h : CountryInv st) (hv : v ∉ st.1)
    (h0 : 0 ≤ conf) (h99 : conf ≤ 99/100) :
    CountryInv (v :: st.1, st.2 ++ [⟨v, conf, srcx⟩]) := by
  constructor
  · rw [List.map_append, List.map_singleton, List.nodup_append]
    refine ⟨h.1, List.nodup_singleton _, ?_⟩
    intro x hx
    simp only [List.mem_singleton]
    intro hxeq
    subst hxeq
    obtain ⟨r, hr, hrv⟩ := List.mem_map.mp hx
    exact hv (hrv ▸ (h.2 r hr).1)
  · intro r hr
    rcases List.mem_append.mp hr with hold | hnew
    · obtain ⟨h1, h2, h3⟩ := h.2 r hold
      exact ⟨List.mem_cons_of_mem _ h1, h2, h3⟩
    · rw [List.mem_singleton] at hnew
      subst hnew
      exact ⟨List.mem_cons_self _ _, h0, h99⟩

theorem countryTld_fold_inv (tld : String) :
    ∀ (l : List CountryInfo) (st : ExtractState), CountryInv st →
      (∀ c ∈ l, c.code ∉ st.1) → (l.map (fun c => c.code)).Nodup →
      CountryInv (l.foldl (countryTldStep tld) st) := by
  intro l
  induction l with
  | nil => intro st h _ _; exact h
  | cons c rest ih =>
    intro st h hdisj hnd
    simp only [List.map_cons, List.nodup_cons] at hnd
    simp only [List.foldl_cons]
    by_cases hc : (c.tld == tld) = true
    · have hst' : countryTldStep tld st c
          = (c.code :: st.1, st.2 ++ [⟨c.code, 95/100, .tld⟩]) := by
        unfold countryTldStep
        rw [if_pos hc]
      rw [hst']
      refine ih _ (countryInv_push st c.code (95/100) .tld h (hdisj c (by simp))
        (by norm_num) (by norm_num)) ?_ hnd.2
      intro c' hc'
      simp only [List.mem_cons]
      push_neg
      exact ⟨fun he => hnd.1 (he ▸ List.mem_map_of_mem _ hc'),
        hdisj c' (by simp [hc'])⟩
    · have hst' : countryTldStep tld st c = st := by
        unfold countryTldStep
        rw [if_neg hc]
      rw [hst']
      exact ih st h (fun c' hc' => hdisj c' (by simp [hc'])) hnd.2

theorem countryTextStep_inv (re : Re) (tl : String) (st : ExtractState)
    (c : CountryInfo) (hc0 : 0 ≤ c.confidence) (h : CountryInv st) :
    CountryInv (countryTextStep re tl st c) := by
  simp only [countryTextStep]
  split
  · exact h
  next hs =>
    split
    next hm =>
      have hmem : c.code ∉ st.1 := by simpa using hs
      refine countryInv_push st c.code _ .pattern h hmem ?_ (min_le_left _ _)
      refine le_min (by norm_num) ?_
      split
      · linarith
      · exact hc0
    · exact h

theorem countryCodeStep_inv (st : ExtractState) (m : String) (h : CountryInv st) :
    CountryInv (countryCodeStep st m) := by
  simp only [countryCodeStep]
  split
  next hcond =>
    have hmem : m ∉ st.1 := by
      have hcond' := hcond
      simp only [Bool.and_eq_true, Bool.not_eq_true'] at hcond'
      simpa using hcond'.1.2
    exact countryInv_push st m (8/10) .pattern h hmem (by norm_num) (by norm_num)
  · exact h

theorem foldl_inv_mem {α σ : Type} (step : σ → α → σ) (Inv : σ → Prop) :
    ∀ (l : List α), (∀ st x, x ∈ l → Inv st → Inv (step st x)) →
      ∀ (st : σ), Inv st → Inv (l.foldl step st) := by
  intro l
  induction l with
  | nil => intro _ st h; exact h
  | cons x rest ih =>
    intro hstep st h
    exact ih (fun st' y hy h' => hstep st' y (by simp [hy]) h') _
      (hstep st x (by simp) h)

theorem extract_countries_state_inv (re : Re) (text domain : String) :
    CountryInv
      ((re.finditer country_code_pattern (upperStr text)).foldl countryCodeStep
        (countries.foldl (countryTextStep re (lowerStr text))
          (countries.foldl (countryTldStep (domainTld domain)) ([], [])))) := by
  have h1 : CountryInv (countries.foldl (countryTldStep (domainTld domain)) ([], [])) :=
    countryTld_fold_inv (domainTld domain) countries ([], [])
      ⟨by simp, by simp⟩ (fun c _ => by simp) (by decide)
  have h2 : CountryInv (countries.foldl (countryTextStep re (lowerStr text))
      (countries.foldl (countryTldStep (domainTld domain)) ([], []))) := by
    refine foldl_inv_mem (countryTextStep re (lowerStr text)) CountryInv countries
      (fun st c hc hinv => countryTextStep_inv re _ st c ?_ hinv) _ h1
    fin_cases hc <;> norm_num
  exact foldl_inv _ CountryInv (fun st m h => countryCodeStep_inv st m h) _ _ h2

theorem extract_countries_eq (re : Re) (text domain : String) :
    extract_countries re text domain =
      sortByConfidence
        ((re.finditer country_code_pattern (upperStr text)).foldl countryCodeStep
          (countries.foldl (countryTextStep re (lowerStr text))
            (countries.foldl (countryTldStep (domainTld domain)) ([], [])))).2 := rfl

theorem countryTldStep_mem_mono (tld : String) (st : ExtractState) (c : CountryInfo)
    (r : ExtractionResult) (h : r ∈ st.2) : r ∈ (countryTldStep tld st c).2 := by
  unfold countryTldStep
  by_cases hc : (c.tld == tld) = true
  · simp only [hc, if_true]
    exact List.mem_append_left _ h
  · simpa [hc] using h

theorem countryTextStep_mem_mono (re : Re) (tl : String) (st : ExtractState)
    (c : CountryInfo) (r : ExtractionResult) (h : r ∈ st.2) :
    r ∈ (countryTextStep re tl st c).2 := by
  simp only [countryTextStep]
  split
  · exact h
  · split
    · exact List.mem_append_left _ h
    · exact h

theorem countryCodeStep_mem_mono (st : ExtractState) (m : String)
    (r : ExtractionResult) (h : r ∈ st.2) : r ∈ (countryCodeStep st m).2 := by
  simp only [countryCodeStep]
  split
  · exact List.mem_append_left _ h
  · exact h

theorem countryTld_fold_mem (tld : String) :
    ∀ (l : List CountryInfo) (c : CountryInfo), c ∈ l → (c.tld == tld) = true →
      ∀ st : ExtractState,
        (⟨c.code, 95/100, ExtractionSource.tld⟩ : ExtractionResult) ∈
          (l.foldl (countryTldStep tld) st).2 := by
  intro l
  induction l with
  | nil => intro c hc; cases hc
  | cons hd rest ih =>
    intro c hc ht st
    simp only [List.foldl_cons]
    rcases List.mem_cons.mp hc with heq | hmem
    · subst heq
      have hst' : countryTldStep tld st c
          = (c.code :: st.1, st.2 ++ [⟨c.code, 95/100, .tld⟩]) := by
        unfold countryTldStep
        rw [if_pos ht]
      rw [hst']
      refine foldl_mem_mono (countryTldStep tld)
        (fun st' x r h => countryTldStep_mem_mono tld st' x r h) rest _ _ ?_
      exact List.mem_append_right _ (by simp)
    · exact ih c hmem ht _

theorem extract_countries_tld_entry_mem (re : Re) (text domain : String)
    (c : CountryInfo) (hc : c ∈ countries) (ht : c.tld = domainTld domain) :
    (⟨c.code, 95/100, ExtractionSource.tld⟩ : ExtractionResult) ∈
      extract_countries re text domain := by
  rw [extract_countries_eq, mem_sortByConfidence]
  have h1 := countryTld_fold_mem (domainTld domain) countries c hc (by simp [ht]) ([], [])
  have h2 := foldl_mem_mono _
    (fun st x r h => countryTextStep_mem_mono re (lowerStr text) st x r h) countries _ _ h1
  exact foldl_mem_mono _ (fun st x r h => countryCodeStep_mem_mono st x r h) _ _ _ h2

theorem value_unique_of_nodup {l : List ExtractionResult}
    (h : (l.map (fun r => r.value)).Nodup) {r1 r2 : ExtractionResult}
    (h1 : r1 ∈ l) (h2 : r2 ∈ l) (hv : r1.value = r2.value) : r1 = r2 :=
  List.inj_on_of_nodup_map h h1 h2 hv

theorem countryTextStep_skip (re : Re) (tl : String) (st : ExtractState)
    (c : CountryInfo)
    (hn : ∀ n ∈ c.names, re.search (countryWordPattern n) tl = false)
    (ha : ∀ a ∈ c.adjectives, re.search (countryWordPattern a) tl = false) :
    countryTextStep re tl st c = st := by
  simp only [countryTextStep]
  split
  · rfl
  · have h1 : c.names.countP (fun n => re.search (countryWordPattern n) tl) = 0 :=
      List.countP_eq_zero.mpr (fun n hn' => by simp [hn n hn'])
    have h2 : c.adjectives.countP (fun a => re.search (countryWordPattern a) tl) = 0 :=
      List.countP_eq_zero.mpr (fun a ha' => by simp [ha a ha'])
    rw [h1, h2]
    simp

theorem foldl_congr_id {α σ : Type} (step : σ → α → σ) :
    ∀ (l : List α), (∀ st x, x ∈ l → step st x = st) → ∀ st, l.foldl step st = st := by
  intro l
  induction l with
  | nil => intro _ st; rfl
  | cons x rest ih =>
    intro h st
    simp only [List.foldl_cons, h st x (by simp)]
    exact ih (fun st' y hy => h st' y (by simp [hy])) st

/-- C7: for the domain `shop.de` and any text in which no country name,
adjective or bare code matches, `extract_countries` returns exactly `DE`
with source `TLD` at confidence 0.95; and for every domain and text, every
result carrying a TLD-matched country code is that TLD entry itself — the
weaker text and bare-code passes never add it a second time. -/
theorem extract_countries_tld_first :
    (∀ (re : Re) (text : String),
      (∀ c ∈ countries, ∀ n ∈ c.names,
        re.search (countryWordPattern n) (lowerStr text) = false) →
      (∀ c ∈ countries, ∀ a ∈ c.adjectives,
        re.search (countryWordPattern a) (lowerStr text) = false) →
      re.finditer country_code_pattern (upperStr text) = [] →
      extract_countries re text "shop.de"
        = [⟨"DE", 95/100, ExtractionSource.tld⟩]) ∧
    (∀ (re : Re) (text domain : String) (c : CountryInfo), c ∈ countries →
      c.tld = domainTld domain →
      ∀ r ∈ extract_countries re text domain, r.value = c.code →
        r = ⟨c.code, 95/100, ExtractionSource.tld⟩) := by
  constructor
  · intro re text hn ha hf
    rw [extract_countries_eq, hf]
    have htld : countries.foldl (countryTldStep (domainTld "shop.de")) ([], [])
        = (["DE"], [⟨"DE", 95/100, ExtractionSource.tld⟩]) := by rfl
    rw [htld, List.foldl_nil,
      foldl_congr_id (countryTextStep re (lowerStr text)) countries
        (fun st c hc => countryTextStep_skip re (lowerStr text) st c (hn c hc) (ha c hc)) _]
    exact sortByConfidence_singleton _
  · intro re text domain c hc ht r hr hrv
    have hinv := extract_countries_state_inv re text domain
    have hnd : ((extract_countries re text domain).map (fun x => x.value)).Nodup := by
      have hperm := sortByConfidence_perm
        ((re.finditer country_code_pattern (upperStr text)).foldl countryCodeStep
          (countries.foldl (countryTextStep re (lowerStr text))
            (countries.foldl (countryTldStep (domainTld domain)) ([], [])))).2
      rw [extract_countries_eq]
      exact (hperm.map (fun x => x.value)).nodup_iff.mpr hinv.1
    exact value_unique_of_nodup hnd hr
      (extract_countries_tld_entry_mem re text domain c hc ht) hrv

/-- Witness for C7: with a regex engine finding nothing in the text, the
domain `shop.de` yields exactly the German TLD hit, and the uniqueness
clause applies to it. -/
theorem extract_countries_tld_first_witness :
    extract_countries reNone "hello world" "shop.de"
      = [⟨"DE", 95/100, ExtractionSource.tld⟩] :=
  extract_countries_tld_first.1 reNone "hello world"
    (fun _ _ _ _ => rfl) (fun _ _ _ _ => rfl) rfl

theorem processSectionMatch_inv (conf : ℚ) (h0 : 0 ≤ conf)
    (st : ExtractState) (m : String) (h : DeleteInv st) :
    DeleteInv (processSectionMatch conf st m) := by
  simp only [processSectionMatch]
  split
  · exact h
  · intro r hr
    rcases List.mem_append.mp hr with hold | hnew
    · exact h r hold
    · rw [List.mem_singleton] at hnew
      subst hnew
      refine ⟨le_min (by norm_num) (add_nonneg h0 ?_), min_le_left _ _⟩
      split
      · norm_num
      · norm_num

theorem processButtonMatch_inv (conf : ℚ) (h0 : 0 ≤ conf) (h99 : conf ≤ 99/100)
    (st : ExtractState) (m : String) (h : DeleteInv st) :
    DeleteInv (processButtonMatch conf st m) := by
  simp only [processButtonMatch]
  split
  · exact h
  · intro r hr
    rcases List.mem_append.mp hr with hold | hnew
    · exact h r hold
    · rw [List.mem_singleton] at hnew
      subst hnew
      exact ⟨h0, h99⟩

theorem extract_delete_links_bounds (re : Re) (text : String) :
    ∀ r ∈ extract_delete_links re text, 0 ≤ r.confidence ∧ r.confidence ≤ 99/100 := by
  have h1 : DeleteInv (delete_section_patterns.foldl
      (fun st p => (re.finditer p.1 (lowerStr text)).foldl (processSectionMatch p.2) st)
      ([], [])) := by
    refine foldl_inv_mem _ DeleteInv delete_section_patterns
      (fun st p hp hinv => foldl_inv _ DeleteInv
        (fun st' m h' => processSectionMatch_inv p.2 ?_ st' m h') _ st hinv)
      ([], []) (by intro r hr; cases hr)
    fin_cases hp <;> norm_num
  have h2 : DeleteInv (delete_button_patterns.foldl
      (fun st p => (re.finditer p.1 (lowerStr text)).foldl (processButtonMatch p.2) st)
      (delete_section_patterns.foldl
        (fun st p => (re.finditer p.1 (lowerStr text)).foldl (processSectionMatch p.2) st)
        ([], []))) := by
    refine foldl_inv_mem _ DeleteInv delete_button_patterns
      (fun st p hp hinv => foldl_inv _ DeleteInv
        (fun st' m h' => processButtonMatch_inv p.2 ?_ ?_ st' m h') _ st hinv)
      _ h1
    · fin_cases hp <;> norm_num
    · fin_cases hp <;> norm_num
  intro r hr
  exact h2 r (mem_sortByConfidence.mp hr)

/-- Evaluation of the email cascade on the counterexample engine: one
`privacy@` match at base 0.95 with the `+0.1` company-domain bonus, clamped
by `min 1.0`. -/
theorem emailCounter_eval :
    extract_emails reEmailCounter emailCounterText
      = [⟨"privacy@example.com", 1, ExtractionSource.pattern⟩] := by
  have h1 : extract_emails reEmailCounter emailCounterText
      = sortByConfidence [⟨"privacy@example.com",
          max (1/10) (min 1 (95/100 + 1/10)), ExtractionSource.pattern⟩] := rfl
  rw [h1, sortByConfidence_singleton]
  have hconf : max (1/10 : ℚ) (min 1 (95/100 + 1/10)) = 1 := by norm_num
  rw [hconf]

/-- C4 counterexample: the email cascade caps at `min 1.0`, not 0.99 — a
`privacy@` match (base 0.95) whose domain also occurs in the text (+0.1)
yields a `Pattern`-source result at confidence exactly 1.0. -/
theorem extract_emails_confidence_one :
    extract_emails reEmailCounter emailCounterText
      = [⟨"privacy@example.com", 1, ExtractionSource.pattern⟩] :=
  emailCounter_eval

/-! ## Confidence-range theorems (C4) -/

/-- C4 (amended): pattern-scoring confidences always lie in `[0, 1]`.
Country extraction, delete-link extraction and policy-URL scoring are
additionally capped at 0.99, and email extraction is floored at 0.1; but
the email cap is `min 1.0`, not 0.99, so an email Pattern result can reach
confidence 1.0 (see the counterexample). -/
theorem extraction_confidence_bounds :
    (∀ (re : Re) (text : String) (r : ExtractionResult), r ∈ extract_emails re text →
      1/10 ≤ r.confidence ∧ r.confidence ≤ 1) ∧
    (∀ (re : Re) (text domain : String) (r : ExtractionResult),
      r ∈ extract_countries re text domain →
      0 ≤ r.confidence ∧ r.confidence ≤ 99/100) ∧
    (∀ (re : Re) (text : String) (r : ExtractionResult),
      r ∈ extract_delete_links re text →
      0 ≤ r.confidence ∧ r.confidence ≤ 99/100) ∧
    (∀ (url : Url) (doc_type : String) (base : ℚ),
      0 ≤ score_policy_candidate url doc_type base ∧
      score_policy_candidate url doc_type base ≤ 99/100) := by
  refine ⟨?_, ?_, ?_, ?_⟩
  · intro re text r hr
    exact (((extract_emails_state_inv re text).2 r (mem_sortByConfidence.mp hr))).2.2
  · intro re text domain r hr
    rw [extract_countries_eq] at hr
    exact ((extract_countries_state_inv re text domain).2 r
      (mem_sortByConfidence.mp hr)).2
  · intro re text r hr
    exact extract_delete_links_bounds re text r hr
  · intro url doc_type base
    simp only [score_policy_candidate]
    exact ⟨le_max_left _ _, max_le (by norm_num) (min_le_left _ _)⟩

/-- Witness for C4 (amended), at the counterexample engine below: the first
returned email result is inside `[0.1, 1]`. -/
theorem extraction_confidence_bounds_witness :
    (1/10 : ℚ) ≤
      (⟨"privacy@example.com", 1, ExtractionSource.pattern⟩ : ExtractionResult).confidence ∧
    (⟨"privacy@example.com", 1, ExtractionSource.pattern⟩ : ExtractionResult).confidence ≤ 1 :=
  extraction_confidence_bounds.1 reEmailCounter emailCounterText _
    (by rw [emailCounter_eval]; simp)

/-! ## Current-value short-circuit (C5) and LLM-fallback guard (C6) -/

/-- C5 (amended): a present current value that passes the field's own
validator short-circuits the enrichment — the call returns it
case-normalised (lower-cased email, upper-cased country code) at confidence
1.0 with source `Fallback`, for every regex engine, every text and every
`use_llm_fallback` flag: no pattern scan influences the result and the
LLM-fallback guard (and hence any oracle) is never reached. -/
theorem enrich_current_value_short_circuit :
    (∀ (re : Re) (text : String) (b : Bool) (cur : String),
      cur ≠ "" → is_valid_email cur = true →
      enrich_email re text (some cur) b
        = .ok (some ⟨lowerStr cur, 1, ExtractionSource.fallback⟩)) ∧
    (∀ (re : Re) (text domain : String) (b : Bool) (cur : String),
      cur ≠ "" → is_valid_country_code cur = true →
      enrich_country re text domain (some cur) b
        = .ok (some ⟨upperStr cur, 1, ExtractionSource.fallback⟩)) := by
  constructor
  · intro re text b cur hne hval
    simp only [enrich_email, Option.getD_some]
    rw [if_pos (by rw [hval]; simp [hne])]
  · intro re text domain b cur hne hval
    simp only [enrich_country, Option.getD_some]
    rw [if_pos (by rw [hval]; simp [hne])]

/-- Witness for C5 (amended): the already-lower-case current email of the
spec's own example is returned unchanged at confidence 1.0. -/
theorem enrich_current_value_short_circuit_witness :
    enrich_email reNone "ignored text" (some "legal@acme.com") true
      = .ok (some ⟨"legal@acme.com", 1, ExtractionSource.fallback⟩) := by
  have h := enrich_current_value_short_circuit.1 reNone "ignored text" true
    "legal@acme.com" (by decide) (by decide)
  rw [show lowerStr "legal@acme.com" = "legal@acme.com" from by decide] at h
  exact h

/-- C5 counterexample: the claim promises that the supplied current value
itself is returned; for the valid current email `"Legal@acme.com"` the code
returns the lower-cased `"legal@acme.com"`, a different string. -/
theorem enrich_email_current_case_counterexample :
    enrich_email reNone "" (some "Legal@acme.com") true
      = .ok (some ⟨"legal@acme.com", 1, ExtractionSource.fallback⟩) ∧
    "legal@acme.com" ≠ "Legal@acme.com" := by
  refine ⟨?_, by decide⟩
  rfl

/-- C6 (code bug): `config.Settings` declares no `enable_llm_fallback`
field (and no `llm_model`), so the guard
`use_llm_fallback and settings.enable_llm_fallback` raises `AttributeError`
whenever `use_llm_fallback` is true and the best pattern confidence is
below the field's threshold — the feature flag is never consulted and the
oracle is never invoked; instead the call raises.  This theorem evaluates
all three enrichment entry points at such failing inputs. -/
theorem enrich_llm_fallback_attribute_error :
    enrich_email reNone "There is no contact information in this text." none true
      = .error settingsAttributeError ∧
    enrich_country reNone "Jurisdiction unspecified." "acme.io" none true
      = .error settingsAttributeError ∧
    enrich_delete_link reNone "There are no links in this text." none true
      = .error settingsAttributeError := by
  have he : extract_emails reNone "There is no contact information in this text." = [] := by
    rw [show extract_emails reNone "There is no contact information in this text."
        = sortByConfidence [] from rfl, sortByConfidence_nil]
  have hc : extract_countries reNone "Jurisdiction unspecified." "acme.io" = [] := by
    rw [show extract_countries reNone "Jurisdiction unspecified." "acme.io"
        = sortByConfidence [] from rfl, sortByConfidence_nil]
  have hd : extract_delete_links reNone "There are no links in this text." = [] := by
    rw [show extract_delete_links reNone "There are no links in this text."
        = sortByConfidence [] from rfl, sortByConfidence_nil]
  refine ⟨?_, ?_, ?_⟩
  · simp [enrich_email, he]
  · simp [enrich_country, hc]
  · simp [enrich_delete_link, hd]

/-! ## Frame property of `enrich_company` (C10) -/

theorem applyFieldOutcome_lookup_ne (key : String)
    (outcome : Except String (Option ExtractionResult))
    (company : List (String × Val)) (now : String)
    (acc : List (String × Val) × List (String × Val)) (k : String) (hk : k ≠ key) :
    dlookup (applyFieldOutcome key outcome company now acc).1 k = dlookup acc.1 k := by
  unfold applyFieldOutcome
  cases outcome with
  | error e => rfl
  | ok o =>
    cases o with
    | some r => exact dlookup_dinsert_ne _ _ _ _ hk
    | none =>
      by_cases hh : dHas company key
      · simp [hh]
      · simp [hh]

/-- C10: `enrich_company` builds its result from a copy of the input
record and only ever writes the keys `email`, `country`, `delete_link`,
`_extraction_metadata` (and, on an orchestration-level exception,
`_extraction_error`); every other key still maps to its original value. -/
theorem enrich_company_frame (re : Re) (st : Settings) (now : String)
    (company : List (String × Val)) (text : String) (b : Bool) (k : String)
    (hk : k ∉ ["email", "country", "delete_link",
               "_extraction_metadata", "_extraction_error"]) :
    dlookup (enrich_company re st now company text b) k = dlookup company k := by
  simp only [List.mem_cons, List.mem_singleton, not_or] at hk
  obtain ⟨h1, h2, h3, h4, _⟩ := hk
  have hstep : ∀ (key : String) (o : Except String (Option ExtractionResult))
      (acc : List (String × Val) × List (String × Val)) (cond : Bool), k ≠ key →
      dlookup (if cond then applyFieldOutcome key o company now acc else acc).1 k
        = dlookup acc.1 k := by
    intro key o acc cond hne
    by_cases hc : cond = true
    · rw [if_pos hc]
      exact applyFieldOutcome_lookup_ne key o company now acc k hne
    · rw [if_neg hc]
  simp only [enrich_company]
  rw [dlookup_dinsert_ne _ _ _ _ h4, hstep _ _ _ _ h3, hstep _ _ _ _ h2,
    hstep _ _ _ _ h1]

/-- Witness for C10: a caller-supplied `name` key survives a full
enrichment run untouched. -/
theorem enrich_company_frame_witness :
    dlookup
      (enrich_company reNone ⟨true, true, true⟩ "2026-10-12T00:00:00"
        [("name", Val.s "Acme"), ("domain", Val.s "acme.de")]
        "policy text" false)
      "name" = some (Val.s "Acme") := by
  rw [enrich_company_frame reNone ⟨true, true, true⟩ "2026-10-12T00:00:00"
    [("name", Val.s "Acme"), ("domain", Val.s "acme.de")] "policy text" false
    "name" (by decide)]
  rfl

/-- Witness for C3 at the concrete counterexample engine: the returned
values are pairwise distinct and the returned value is validator-approved. -/
theorem extract_emails_dedup_and_valid_witness :
    ((extract_emails reEmailCounter emailCounterText).map (fun r => r.value)).Nodup ∧
    is_valid_email "privacy@example.com" = true := by
  refine ⟨(extract_emails_dedup_and_valid reEmailCounter emailCounterText).1, ?_⟩
  exact (extract_emails_dedup_and_valid reEmailCounter emailCounterText).2
    ⟨"privacy@example.com", 1, ExtractionSource.pattern⟩
    (by rw [emailCounter_eval]; simp)
